import Mathlib

/-!
# follow-along: the transcript player `Main` and the `keyify` utility

A shallow embedding of `src/components/Main/Main.js` and `src/util.js`.

* JavaScript numbers are embedded as IEEE 754 binary64 values, the type `Double`:
  `*`, `+`, `<=` and `<` below are the operations of JavaScript, with rounding to
  nearest, infinities and `NaN`. Speaker ids, which the code only uses as property
  keys, are rationals.
* `TICKING_FREQUENCY` is imported from `../../constants`; its value is left open and
  is a parameter `TF` of every definition that uses it.
* React's `setState` is embedded by explicit state passing: a handler maps the
  component instance before the call to the instance after all updates it queued
  have been applied.
* `window.setInterval` / `window.clearInterval` are embedded by an explicit table
  of live interval handles carried next to the instance.
* `keyify` creates objects, so it is embedded over an explicit heap of cells; the
  generator `uuid` is the sequence of the values it returns.
-/

namespace FollowAlong

/-! ## JavaScript numbers -/

/-- A JavaScript number, that is an IEEE 754 binary64 value: `NaN`, an infinity, or
a finite value. Every finite binary64 value is a multiple of `2 ^ (-1074)`, so the
finite value `fin neg n` is `n * 2 ^ (-1074)`, negated when `neg` is set; `fin true 0`
is `-0`. Literals and operations only yield values of at most 53 significant bits
below `2 ^ 1024`; the type also holds the other `n`, and what is proved holds for
them too. -/
inductive Double where
  | nan
  | inf (neg : Bool)
  | fin (neg : Bool) (n : ℕ)
  deriving DecidableEq

namespace Double

/-- The number `1` counted in multiples of `2 ^ (-1074)`. -/
def unit : ℕ := 1 <<< 1074

/-- The integer nearest to `num / den`, the even one on a tie. -/
def roundHalfEven (num den : ℕ) : ℕ :=
  let q := num / den
  let r := num % den
  if 2 * r < den then q
  else if den < 2 * r then q + 1
  else if q % 2 = 0 then q else q + 1

/-- The shifts `s, 2 * s, 4 * s, ...` that leave a bit of `n`, the longest first,
in front of `acc`. -/
def shifts : ℕ → ℕ → ℕ → List ℕ → List ℕ
  | 0, _, _, acc => acc
  | fuel + 1, s, n, acc => if n >>> s = 0 then acc else shifts fuel (2 * s) n (s :: acc)

/-- The position of the leading bit of `n`, that is the greatest `k` with `2 ^ k <= n`
(`0` for `n = 0`), found by bisection: a shift is added to `k` when it still leaves a
bit of `n`. -/
def log2 (n : ℕ) : ℕ :=
  (shifts n 1 n []).foldl (fun k s => if n >>> (k + s) = 0 then k else k + s) 0

/-- Rounding to nearest, ties to even: the binary64 value of sign `neg` nearest to
`num / den` multiples of `2 ^ (-1074)`. A value keeps 53 significant bits, so the
last `shift` bits are rounded away; a result of `2 ^ 1024` or more is an infinity. -/
def round (neg : Bool) (num den : ℕ) : Double :=
  let shift := log2 (num / den) - 52
  let n := roundHalfEven num (den <<< shift) <<< shift
  if 1 <<< 2098 ≤ n then inf neg else fin neg n

/-- The power `10 ^ k`. -/
def pow10 : ℕ → ℕ
  | 0 => 1
  | k + 1 => 10 * pow10 k

/-- The value of a decimal literal such as `4.03` or `1e306`. -/
def ofScientific (mantissa : ℕ) (exponentSign : Bool) (decimalExponent : ℕ) : Double :=
  if exponentSign then round false (mantissa * unit) (pow10 decimalExponent)
  else round false (mantissa * pow10 decimalExponent * unit) 1

/-- The value of an integer literal such as `1000`. -/
def ofNat (n : ℕ) : Double := round false (n * unit) 1

instance (n : ℕ) : OfNat Double n := ⟨ofNat n⟩

instance : OfScientific Double := ⟨ofScientific⟩

/-- The product `a * b` of JavaScript. -/
def mul : Double → Double → Double
  | nan, _ => nan
  | inf _, nan => nan
  | inf a, inf b => inf (xor a b)
  | inf a, fin b k => if k = 0 then nan else inf (xor a b)
  | fin _ _, nan => nan
  | fin a n, inf b => if n = 0 then nan else inf (xor a b)
  | fin a n, fin b k => round (xor a b) (n * k) unit

/-- The sum `a + b` of JavaScript. -/
def add : Double → Double → Double
  | nan, _ => nan
  | inf _, nan => nan
  | inf a, inf b => if a = b then inf a else nan
  | inf a, fin _ _ => inf a
  | fin _ _, nan => nan
  | fin _ _, inf b => inf b
  | fin a n, fin b k =>
    if a = b then round a (n + k) 1
    else if n = k then fin false 0
    else if k < n then round a (n - k) 1
    else round b (k - n) 1

instance : Mul Double := ⟨mul⟩

instance : Add Double := ⟨add⟩

/-- A finite value as a signed count of multiples of `2 ^ (-1074)`. -/
def toInt (neg : Bool) (n : ℕ) : ℤ := if neg then -(n : ℤ) else (n : ℤ)

/-- The comparison `a <= b` of JavaScript: `false` as soon as one side is `NaN`. -/
def le : Double → Double → Bool
  | nan, _ => false
  | inf _, nan => false
  | inf a, inf b => a || !b
  | inf a, fin _ _ => a
  | fin _ _, nan => false
  | fin _ _, inf b => !b
  | fin a n, fin b k => decide (toInt a n ≤ toInt b k)

/-- The comparison `a < b` of JavaScript. -/
def lt (a b : Double) : Bool := le a b && !le b a

instance : LE Double := ⟨fun a b => le a b = true⟩

instance : LT Double := ⟨fun a b => lt a b = true⟩

instance (a b : Double) : Decidable (a ≤ b) := inferInstanceAs (Decidable (le a b = true))

instance (a b : Double) : Decidable (a < b) := inferInstanceAs (Decidable (lt a b = true))

end Double

/-! ## Plain objects -/

/-- A plain JavaScript object: its own properties, key and value. -/
abbrev Obj (κ : Type) (ν : Type) := List (κ × ν)

/-- Property read `obj[k]`; `none` stands for `undefined`. -/
def Obj.get {κ ν : Type} [DecidableEq κ] : Obj κ ν → κ → Option ν
  | [], _ => none
  | (k', v') :: rest, k => if k' = k then some v' else Obj.get rest k

/-- The object literal `{ ...obj, [k]: v }`: the own properties of `obj` are copied
and `k` is then defined as `v`, overwriting a copied `k`. -/
def Obj.spreadWith {κ ν : Type} [DecidableEq κ] : Obj κ ν → κ → ν → Obj κ ν
  | [], k, v => [(k, v)]
  | (k', v') :: rest, k, v =>
    if k' = k then (k, v) :: rest else (k', v') :: Obj.spreadWith rest k v

/-! ## `src/util.js` -/

/-- A cell of the JavaScript heap: a plain object, or an array of references. A
reference is the position of a cell in the heap. -/
inductive Cell (ν : Type) where
  | object (own : Obj String ν)
  | array (items : List ℕ)

/-- The heap: the cells allocated so far, in order of allocation. -/
abbrev Heap (ν : Type) := List (Cell ν)

/-- The own properties that the spread `...item` copies out of the cell `item`. -/
def Heap.own {ν : Type} (heap : Heap ν) (item : ℕ) : Obj String ν :=
  match heap[item]? with
  | some (Cell.object own) => own
  | _ => []

/-- The `map` of `keyify` over the elements of the input array, left to right: for
each `item` the callback `item => ({ ...item, __key: uuid() })` allocates one new
object. Returns the references of the new objects, the heap and the number of calls
of `uuid` made so far. -/
def keyifyItems {ν : Type} (uuid : ℕ → ν) : List ℕ → Heap ν → ℕ → List ℕ × Heap ν × ℕ
  | [], heap, calls => ([], heap, calls)
  | item :: rest, heap, calls =>
    let keyed := Obj.spreadWith (Heap.own heap item) "__key" (uuid calls)
    let tail := keyifyItems uuid rest (heap ++ [Cell.object keyed]) (calls + 1)
    (heap.length :: tail.1, tail.2.1, tail.2.2)

/-- `keyify(array)` of `util.js`: `array.map(item => ({ ...item, __key: uuid() }))`.

* `array` is a reference into `heap`; the result is the reference of the new array
  that `map` allocates, with the heap after the call. `none` stands for the
  `TypeError` of calling `map` on something that is not an array.
* The generator `uuid` of the `uuid/v4` package is embedded by the sequence of
  values it yields, `uuid n` being the value of its `n`-th call, and by the number
  `calls` of calls made so far, which `keyify` takes and returns. -/
def keyify {ν : Type} (uuid : ℕ → ν) (heap : Heap ν) (calls : ℕ) (array : ℕ) :
    Option (ℕ × Heap ν × ℕ) :=
  match heap[array]? with
  | some (Cell.array items) =>
    let mapped := keyifyItems uuid items heap calls
    some (mapped.2.1.length, mapped.2.1 ++ [Cell.array mapped.1], mapped.2.2)
  | _ => none

/-! ## `src/types.js` and the props of `Main` -/

/-- The `SemanticWordType` of `src/types.js`. The code reads `start_time` and
`duration` only as operands of `* 1000`, where a missing field (`undefined`) gives
`NaN`: a missing number is embedded as `NaN`. It reads `is_symbol` only as a
condition, where a missing field is falsy: it is embedded as `false`. -/
structure SemanticWord where
  start_time : Double
  duration : Double
  is_symbol : Bool
  name : String

/-- One element of the `utterances` prop. -/
structure Utterance where
  words : List SemanticWord
  speaker_id : ℚ

/-- One element of the `speakers` prop. -/
structure Speaker where
  id : ℚ
  name : String

/-- The props of `Main`; `defaultProps` are two empty arrays. -/
structure Props where
  speakers : List Speaker := []
  utterances : List Utterance := []

/-! ## `src/components/Main/Main.js` -/

/-- An instance of the class `Main` together with the interval table of `window`.

* `timeline`, `inProgress`: the two fields of `this.state` that change.
  (`state.speakers` and `state.utterances` are the keyified props, set once in the
  constructor and only read by `render`.)
* `speakersById`, `endOfTimeline`, `ticking`: the instance properties; `ticking` is
  `none` while `this.ticking` is still `undefined`.
* `intervals`: the handles of the intervals of `window` that were set by
  `startTicking` and not cleared since; each of them fires `progressTimeline`.
* `nextHandle`: the handle the next `window.setInterval` returns. -/
structure Main where
  props : Props
  timeline : Double
  inProgress : Bool
  speakersById : Obj ℚ String
  endOfTimeline : Double
  ticking : Option ℕ
  intervals : List ℕ
  nextHandle : ℕ

/-- The end time of the last word of an utterance, as the inner `reduce` of the
constructor computes it. -/
def lastWord (next : Utterance) : Double :=
  next.words.foldl
    (fun prev next =>
      let formattedDuration := next.duration * 1000
      let formattedStartTime := next.start_time * 1000
      let endTime := formattedStartTime + formattedDuration
      if endTime > prev then endTime else prev)
    0

/-- The constructor of `Main`. The page has set no interval yet and `window` hands
out the positive handles `1, 2, ...`. -/
def Main.constructor (props : Props) : Main where
  props := props
  timeline := 0
  inProgress := false
  speakersById :=
    props.speakers.foldl (fun prev next => Obj.spreadWith prev next.id next.name) []
  endOfTimeline :=
    props.utterances.foldl
      (fun prev next => if lastWord next > prev then lastWord next else prev)
      0
  ticking := none
  intervals := []
  nextHandle := 1

/-- `componentWillUnmount()`: `if (this.ticking) window.clearInterval(this.ticking)`;
a handle is truthy when it is not `0`. -/
def componentWillUnmount (m : Main) : Main :=
  match m.ticking with
  | none => m
  | some h => if h ≠ 0 then { m with intervals := m.intervals.filter (· ≠ h) } else m

/-- `getSpeakerById(id)`: `this.speakersById[id]`. -/
def getSpeakerById (m : Main) (id : ℚ) : Option String :=
  m.speakersById.get id

/-- `startTicking()`: `this.ticking = window.setInterval(this.progressTimeline, ...)`.
A new interval is registered under a new handle, which replaces `this.ticking`. -/
def startTicking (m : Main) : Main :=
  { m with
    ticking := some m.nextHandle
    intervals := m.intervals ++ [m.nextHandle]
    nextHandle := m.nextHandle + 1 }

/-- `stopTicking()`: `window.clearInterval(this.ticking)`, which does nothing when
`this.ticking` is `undefined` or names no live interval. -/
def stopTicking (m : Main) : Main :=
  match m.ticking with
  | none => m
  | some h => { m with intervals := m.intervals.filter (· ≠ h) }

/-- `startTimeline()`. -/
def startTimeline (m : Main) : Main :=
  startTicking { m with inProgress := true }

/-- `pauseTimeline()`. -/
def pauseTimeline (m : Main) : Main :=
  stopTicking { m with inProgress := false }

/-- `restartTimeline()`. -/
def restartTimeline (m : Main) : Main :=
  pauseTimeline { m with timeline := 0 }

/-- `progressTimeline()` with its completion callback: one tick. -/
def progressTimeline (TF : Double) (m : Main) : Main :=
  let m1 := { m with timeline := m.timeline + TF }
  if m1.timeline ≥ m1.endOfTimeline then restartTimeline m1 else m1

/-- `determineIfActive(word)`, with `this.state.timeline` read from the instance. -/
def determineIfActive (m : Main) (word : SemanticWord) : Bool :=
  if word.is_symbol then false
  else
    let formattedDuration := word.duration * 1000
    let formattedStartTime := word.start_time * 1000
    let endTime := formattedStartTime + formattedDuration
    decide (m.timeline ≥ formattedStartTime) && decide (m.timeline ≤ endTime)

/-! ## The player as a transition system -/

/-- What can happen to a mounted player: the three handlers of the controls, and
an interval firing `progressTimeline`. -/
inductive Action where
  | start
  | pause
  | restart
  | tick
  deriving DecidableEq

/-- One step of the player. A tick is allowed in every state, also when no interval
is live: the states reached this way include every state the page can reach. -/
def step (TF : Double) : Action → Main → Main
  | .start, m => startTimeline m
  | .pause, m => pauseTimeline m
  | .restart, m => restartTimeline m
  | .tick, m => progressTimeline TF m

/-- The instance after a sequence of steps. -/
def run (TF : Double) (acts : List Action) (m : Main) : Main :=
  acts.foldl (fun m a => step TF a m) m

/-- The sequences the rendered controls allow as far as Start is concerned: the
Start button is rendered with `disabled={inProgress}`, so `startTimeline` is only
called on an instance whose `inProgress` is `false`. -/
def startGated (TF : Double) : List Action → Main → Bool
  | [], _ => true
  | a :: rest, m =>
    (decide (a ≠ Action.start) || !m.inProgress) && startGated TF rest (step TF a m)

/-- Repeated ticks. -/
def ticks (TF : Double) : ℕ → Main → Main
  | 0, m => m
  | n + 1, m => ticks TF n (progressTimeline TF m)

/-- The discipline of a player whose Start control is honoured: at most one interval
is live, it is the one in `this.ticking`, and it is live exactly while the player is
in progress. -/
def OneTimer (m : Main) : Prop :=
  (m.inProgress = false → m.intervals = []) ∧
    (m.inProgress = true → ∃ t, t ≠ 0 ∧ m.ticking = some t ∧ m.intervals = [t]) ∧
    m.nextHandle ≠ 0

/-! ## Sample data -/

/-- A generator of identifiers that never repeats itself: its `n`-th value is the
string of `n` letters `u`. -/
def sampleUuid (n : ℕ) : String :=
  String.mk (List.replicate n 'u')

/-- A heap with two records, the second of which already carries a `__key`, and at
reference `2` the array of the two. -/
def sampleHeap : Heap String :=
  [Cell.object [("name", "Ann")], Cell.object [("__key", "old"), ("name", "Bob")],
    Cell.array [0, 1]]

/-- A transcript of two utterances; the word that ends last, at `3000` ms, is the
first word of the first utterance. -/
def sampleProps : Props where
  speakers := [⟨1, "Ann"⟩, ⟨2, "Bob"⟩]
  utterances :=
    [ { speaker_id := 1
        words := [⟨2, 1, false, "hello"⟩, ⟨0.5, 0.5, false, "there"⟩, ⟨1, 0, true, "."⟩] },
      { speaker_id := 2
        words := [⟨1, 0.25, false, "hi"⟩] } ]

/-- A transcript of one utterance with one word, which ends at `3000` ms. -/
def oneWordProps : Props where
  speakers := [⟨1, "Ann"⟩]
  utterances := [ { speaker_id := 1, words := [⟨2, 1, false, "hello"⟩] } ]

/-! ## Lemmas on numbers -/

namespace Double

theorem le_def (a b : Double) : a ≤ b ↔ le a b = true := Iff.rfl

theorem lt_def (a b : Double) : a < b ↔ (le a b = true ∧ le b a = false) := by
  show lt a b = true ↔ _
  simp [lt]

theorem le_of_lt {a b : Double} (h : a < b) : a ≤ b := ((lt_def a b).mp h).1

theorem not_le_of_lt {a b : Double} (h : a < b) : ¬ b ≤ a := by
  intro h'
  have := ((lt_def a b).mp h).2
  rw [(le_def b a).mp h'] at this
  exact Bool.noConfusion this

/-- Both sides of a true comparison are numbers. -/
theorem le_self_of_le {a b : Double} (h : a ≤ b) : a ≤ a ∧ b ≤ b := by
  simp only [le_def] at *
  cases a <;> cases b <;> simp_all [le]

theorem le_trans {a b c : Double} (hab : a ≤ b) (hbc : b ≤ c) : a ≤ c := by
  simp only [le_def] at *
  cases a <;> cases b <;> cases c <;> simp_all [le]
  · rename_i x y z
    cases x <;> cases y <;> cases z <;> simp_all
  · exact Int.le_trans hab hbc

/-- Two numbers are comparable: when `a < b` fails, `b <= a` holds. -/
theorem le_of_not_lt {a b : Double} (ha : a ≤ a) (hb : b ≤ b) (h : ¬ a < b) : b ≤ a := by
  rw [lt_def] at h
  simp only [le_def] at *
  cases a <;> cases b <;> simp_all [le]
  · rename_i x y
    cases x <;> cases y <;> simp_all
  · omega

theorem zero_eq : (0 : Double) = fin false 0 := by decide

set_option maxRecDepth 4000 in
/-- The arithmetic rounds as JavaScript does: `4.03 * 1000` is
`4030.0000000000005`, above `4030`; `1.1 * 1000` is `1100`; `0.1 + 0.2` is not `0.3`;
`1e306 * 1000` overflows to `Infinity`; and `Infinity + -Infinity` is `NaN`, which
compares with nothing. -/
theorem arithmetic_examples :
    (4030 : Double) < 4.03 * 1000 ∧ (1.1 : Double) * 1000 = 1100 ∧
      (0.1 : Double) + 0.2 ≠ 0.3 ∧ (1e306 : Double) * 1000 = inf false ∧
      inf false + inf true = nan ∧ ¬ (nan ≤ nan) :=
  ⟨by decide, by decide, by decide, by decide, by decide, by decide⟩

theorem zero_le_iff (x : Double) :
    0 ≤ x ↔ x = inf false ∨ ∃ neg n, x = fin neg n ∧ (neg = false ∨ n = 0) := by
  rw [le_def, zero_eq]
  cases x with
  | nan => simp [le]
  | inf b => cases b <;> simp [le]
  | fin b n => cases b <;> simp [le, toInt]

theorem zero_le_round (num den : ℕ) : (0 : Double) ≤ round false num den := by
  rw [zero_le_iff]
  unfold round
  simp only
  split
  · exact Or.inl rfl
  · exact Or.inr ⟨_, _, rfl, Or.inl rfl⟩

theorem round_zero (neg : Bool) (den : ℕ) : round neg 0 den = fin neg 0 := by
  simp [round, log2, shifts, roundHalfEven]

theorem thousand_eq : (1000 : Double) = fin false (1000 <<< 1074) := by decide

theorem zero_le_mul_thousand {x : Double} (h : 0 ≤ x) : 0 ≤ x * 1000 := by
  rw [thousand_eq]
  rcases (zero_le_iff x).mp h with rfl | ⟨neg, n, rfl, hz⟩
  · show (0 : Double) ≤ mul (inf false) (fin false (1000 <<< 1074))
    rw [zero_le_iff]
    left
    simp [mul]
  · show (0 : Double) ≤ mul (fin neg n) (fin false (1000 <<< 1074))
    rcases hz with rfl | rfl
    · exact zero_le_round _ _
    · simp only [mul, Nat.zero_mul, round_zero]
      rw [zero_le_iff]
      exact Or.inr ⟨_, _, rfl, Or.inr rfl⟩

theorem zero_le_add {x y : Double} (hx : 0 ≤ x) (hy : 0 ≤ y) : 0 ≤ x + y := by
  rcases (zero_le_iff x).mp hx with rfl | ⟨a, n, rfl, ha⟩
  · rcases (zero_le_iff y).mp hy with rfl | ⟨b, k, rfl, -⟩
    · exact (zero_le_iff _).mpr (Or.inl rfl)
    · exact (zero_le_iff _).mpr (Or.inl rfl)
  · rcases (zero_le_iff y).mp hy with rfl | ⟨b, k, rfl, hb⟩
    · exact (zero_le_iff _).mpr (Or.inl rfl)
    · show (0 : Double) ≤ add (fin a n) (fin b k)
      have hzero : (0 : Double) ≤ fin false 0 := (zero_le_iff _).mpr (Or.inr ⟨_, _, rfl, Or.inl rfl⟩)
      rcases ha with rfl | rfl <;> rcases hb with rfl | rfl
      · simp only [add, if_true]
        exact zero_le_round _ _
      · cases b
        · simp only [add, if_true]
          exact zero_le_round _ _
        · simp only [add, Bool.false_eq_true, if_false]
          split
          · exact hzero
          · split
            · exact zero_le_round _ _
            · rename_i h1 h2
              omega
      · cases a
        · simp only [add, if_true]
          exact zero_le_round _ _
        · simp only [add, Bool.true_eq_false, if_false]
          split
          · exact hzero
          · split
            · rename_i h1 h2
              omega
            · exact zero_le_round _ _
      · cases a <;> cases b <;> simp [add, round_zero] <;>
          first
            | exact hzero

end Double

/-! ## Lemmas on plain objects -/

theorem Obj.get_spreadWith {κ ν : Type} [DecidableEq κ] (o : Obj κ ν) (k : κ) (v : ν)
    (k' : κ) :
    Obj.get (Obj.spreadWith o k v) k' = if k = k' then some v else Obj.get o k' := by
  induction o with
  | nil => simp [Obj.spreadWith, Obj.get]
  | cons p rest ih =>
    obtain ⟨a, b⟩ := p
    by_cases h : a = k
    · subst h
      by_cases h' : a = k' <;> simp [Obj.spreadWith, Obj.get, h']
    · by_cases h' : a = k'
      · subst h'
        have hk : ¬ k = a := fun e => h e.symm
        simp [Obj.spreadWith, Obj.get, h, hk]
      · simp [Obj.spreadWith, Obj.get, h, h', ih]

theorem speakersById_get_of_forall_ne (l : List Speaker) (acc : Obj ℚ String) (id : ℚ)
    (h : ∀ s ∈ l, s.id ≠ id) :
    Obj.get (l.foldl (fun prev next => Obj.spreadWith prev next.id next.name) acc) id
      = Obj.get acc id := by
  induction l generalizing acc with
  | nil => rfl
  | cons s rest ih =>
    simp only [List.foldl_cons]
    rw [ih _ (fun t ht => h t (List.mem_cons_of_mem _ ht)), Obj.get_spreadWith]
    simp [h s (List.mem_cons_self _ _)]

theorem speakersById_get_last (pre post : List Speaker) (sp : Speaker) (acc : Obj ℚ String)
    (h : ∀ s ∈ post, s.id ≠ sp.id) :
    Obj.get
        ((pre ++ sp :: post).foldl (fun prev next => Obj.spreadWith prev next.id next.name) acc)
        sp.id
      = some sp.name := by
  rw [List.foldl_append, List.foldl_cons, speakersById_get_of_forall_ne post _ _ h,
    Obj.get_spreadWith]
  simp

/-! ## `determineIfActive` -/

/-- Claim C1: `determineIfActive(w)` at `state.timeline = t` is `true` exactly when `w`
is not a symbol and `start_time*1000 <= t <= start_time*1000 + duration*1000`, both
bounds included, the products, the sum and the comparisons being those of JavaScript;
it is `false` at every `t` for a symbol. The word
`{start_time: 1.0, duration: 0.5, is_symbol: false}` is active at `1200` and inactive
at `1600`; the symbol `{start_time: 2.0, duration: 0.0}` is inactive at `2000`. -/
theorem determineIfActive_iff :
    (∀ (m : Main) (w : SemanticWord),
        determineIfActive m w = true ↔
          (w.is_symbol = false ∧ w.start_time * 1000 ≤ m.timeline ∧
            m.timeline ≤ w.start_time * 1000 + w.duration * 1000)) ∧
      (∀ (m : Main) (w : SemanticWord), w.is_symbol = true → determineIfActive m w = false) ∧
      (∀ m : Main, m.timeline = 1200 →
        determineIfActive m ⟨1.0, 0.5, false, "spoken"⟩ = true) ∧
      (∀ m : Main, m.timeline = 1600 →
        determineIfActive m ⟨1.0, 0.5, false, "spoken"⟩ = false) ∧
      (∀ m : Main, m.timeline = 2000 →
        determineIfActive m ⟨2.0, 0.0, true, ","⟩ = false) := by
  refine ⟨?_, ?_, ?_, ?_, ?_⟩
  · intro m w
    cases hs : w.is_symbol <;> simp [determineIfActive, hs]
  · intro m w hs
    simp [determineIfActive, hs]
  · intro m ht
    simp only [determineIfActive, ht]
    decide
  · intro m ht
    simp only [determineIfActive, ht]
    decide
  · intro m _
    simp [determineIfActive]

/-- Claim C1 on concrete instances. At timeline `0` a word starting at `0` is active and
a symbol is not. The bounds are those of the rounded products: `4.03 * 1000` is
`4030.0000000000005`, so the word `{start_time: 4.03, duration: 0.5}` is not yet active
at `4030`; `1.1 * 1000` is `1100`, so the word `{start_time: 1.1, duration: 0.5}` is
active at `1100`. -/
theorem determineIfActive_iff_witness :
    determineIfActive (Main.constructor {}) ⟨0, 0.5, false, "spoken"⟩ = true ∧
      determineIfActive (Main.constructor {}) ⟨0, 0.5, true, ","⟩ = false ∧
      determineIfActive { Main.constructor {} with timeline := 4030 }
          ⟨4.03, 0.5, false, "spoken"⟩ = false ∧
      determineIfActive { Main.constructor {} with timeline := 1100 }
          ⟨1.1, 0.5, false, "spoken"⟩ = true :=
  ⟨(determineIfActive_iff.1 (Main.constructor {}) ⟨0, 0.5, false, "spoken"⟩).2
      ⟨rfl, by decide, by decide⟩,
    determineIfActive_iff.2.1 (Main.constructor {}) ⟨0, 0.5, true, ","⟩ rfl,
    by decide, by decide⟩

/-! ## `restartTimeline` -/

/-- Claim C5: from every prior state, whatever its timeline and whether it is in
progress or not, `restartTimeline` yields `timeline = 0` and `inProgress = false`. -/
theorem restartTimeline_resets (m : Main) :
    (restartTimeline m).timeline = 0 ∧ (restartTimeline m).inProgress = false := by
  unfold restartTimeline pauseTimeline stopTicking
  cases m.ticking <;> simp

/-! ## `getSpeakerById` -/

/-- A list with an element of some kind splits at the last element of that kind. -/
theorem exists_last_split {α : Type} (p : α → Prop) (l : List α) (h : ∃ x ∈ l, p x) :
    ∃ (pre : List α) (x : α) (post : List α),
      l = pre ++ x :: post ∧ p x ∧ ∀ y ∈ post, ¬ p y := by
  induction l with
  | nil =>
    obtain ⟨x, hx, -⟩ := h
    exact absurd hx (List.not_mem_nil x)
  | cons a rest ih =>
    by_cases hrest : ∃ x ∈ rest, p x
    · obtain ⟨pre, x, post, h1, h2, h3⟩ := ih hrest
      exact ⟨a :: pre, x, post, by rw [h1]; rfl, h2, h3⟩
    · obtain ⟨x, hx, hpx⟩ := h
      rcases List.mem_cons.mp hx with rfl | hx
      · exact ⟨[], x, rest, rfl, hpx, fun y hy hpy => hrest ⟨y, hy, hpy⟩⟩
      · exact absurd ⟨x, hx, hpx⟩ hrest

/-- Claim C10: over the map built by the constructor, `getSpeakerById(id)` returns the
name of a speaker of the list whose id is `id` when there is one, namely of the last
such speaker, and returns `undefined` (here `none`) when no speaker has that id. -/
theorem getSpeakerById_spec (props : Props) (id : ℚ) :
    ((∃ s ∈ props.speakers, s.id = id) →
        ∃ s ∈ props.speakers, s.id = id ∧
          getSpeakerById (Main.constructor props) id = some s.name) ∧
      (∀ (pre post : List Speaker) (sp : Speaker),
        props.speakers = pre ++ sp :: post → sp.id = id → (∀ s ∈ post, s.id ≠ id) →
          getSpeakerById (Main.constructor props) id = some sp.name) ∧
      ((∀ s ∈ props.speakers, s.id ≠ id) →
          getSpeakerById (Main.constructor props) id = none) := by
  have hlast : ∀ (pre post : List Speaker) (sp : Speaker),
      props.speakers = pre ++ sp :: post → sp.id = id → (∀ s ∈ post, s.id ≠ id) →
        getSpeakerById (Main.constructor props) id = some sp.name := by
    intro pre post sp hsp hid hpost
    subst hid
    simp only [getSpeakerById, Main.constructor, hsp]
    exact speakersById_get_last pre post sp [] hpost
  refine ⟨?_, hlast, ?_⟩
  · intro hex
    obtain ⟨pre, sp, post, h1, h2, h3⟩ :=
      exists_last_split (fun s : Speaker => s.id = id) props.speakers hex
    exact ⟨sp, by rw [h1]; simp, h2, hlast pre post sp h1 h2 h3⟩
  · intro h
    simp only [getSpeakerById, Main.constructor]
    rw [speakersById_get_of_forall_ne _ _ _ h]
    rfl

/-- Claim C10 on the list `[(1, Ann), (2, Bob), (1, Cy)]`: id `1` resolves to the last
speaker carrying it, id `3` resolves to nothing. -/
theorem getSpeakerById_spec_witness :
    getSpeakerById (Main.constructor { speakers := [⟨1, "Ann"⟩, ⟨2, "Bob"⟩, ⟨1, "Cy"⟩] }) 1
        = some "Cy" ∧
      getSpeakerById (Main.constructor { speakers := [⟨1, "Ann"⟩, ⟨2, "Bob"⟩, ⟨1, "Cy"⟩] }) 3
        = none :=
  ⟨(getSpeakerById_spec { speakers := [⟨1, "Ann"⟩, ⟨2, "Bob"⟩, ⟨1, "Cy"⟩] } 1).2.1
      [⟨1, "Ann"⟩, ⟨2, "Bob"⟩] [] ⟨1, "Cy"⟩ rfl rfl (by simp),
    (getSpeakerById_spec { speakers := [⟨1, "Ann"⟩, ⟨2, "Bob"⟩, ⟨1, "Cy"⟩] } 3).2.2
      (by simp)⟩

/-! ## `endOfTimeline` -/

/-- The `reduce` pattern of the constructor, `(prev, next) => f next > prev ? f next : prev`:
the result is the start value or one of the `f next`, and is not below the start
value, whatever the list holds (a `NaN` is greater than nothing and is skipped). -/
theorem foldl_greater_init {α : Type} (f : α → Double) (l : List α) :
    ∀ a : Double, a ≤ a →
      a ≤ l.foldl (fun prev next => if f next > prev then f next else prev) a ∧
      (l.foldl (fun prev next => if f next > prev then f next else prev) a = a ∨
        ∃ x ∈ l, l.foldl (fun prev next => if f next > prev then f next else prev) a = f x) := by
  induction l with
  | nil => intro a ha; exact ⟨ha, Or.inl rfl⟩
  | cons y rest ih =>
    intro a ha
    simp only [List.foldl_cons]
    by_cases h : f y > a
    · rw [if_pos h]
      have hy : f y ≤ f y := (Double.le_self_of_le (Double.le_of_lt h)).2
      obtain ⟨h1, h2⟩ := ih (f y) hy
      refine ⟨Double.le_trans (Double.le_of_lt h) h1, Or.inr ?_⟩
      rcases h2 with h2 | ⟨x, hx, h2⟩
      · exact ⟨y, List.mem_cons_self _ _, h2⟩
      · exact ⟨x, List.mem_cons_of_mem _ hx, h2⟩
    · rw [if_neg h]
      obtain ⟨h1, h2⟩ := ih a ha
      refine ⟨h1, ?_⟩
      rcases h2 with h2 | ⟨x, hx, h2⟩
      · exact Or.inl h2
      · exact Or.inr ⟨x, List.mem_cons_of_mem _ hx, h2⟩

/-- The same `reduce` over numbers: the result is not below any `f next`. -/
theorem foldl_greater_bound {α : Type} (f : α → Double) (l : List α)
    (hnum : ∀ x ∈ l, f x ≤ f x) :
    ∀ a : Double, a ≤ a →
      ∀ x ∈ l, f x ≤ l.foldl (fun prev next => if f next > prev then f next else prev) a := by
  induction l with
  | nil => intro a _ x hx; exact absurd hx (List.not_mem_nil x)
  | cons y rest ih =>
    intro a ha x hx
    simp only [List.foldl_cons]
    have hy : f y ≤ f y := hnum y (List.mem_cons_self _ _)
    have hrest : ∀ z ∈ rest, f z ≤ f z := fun z hz => hnum z (List.mem_cons_of_mem _ hz)
    by_cases h : f y > a
    · rw [if_pos h]
      rcases List.mem_cons.mp hx with rfl | hx
      · exact (foldl_greater_init f rest (f x) hy).1
      · exact ih hrest (f y) hy x hx
    · rw [if_neg h]
      rcases List.mem_cons.mp hx with rfl | hx
      · exact Double.le_trans (Double.le_of_not_lt ha hy h) (foldl_greater_init f rest a ha).1
      · exact ih hrest a ha x hx

theorem Double.zero_le_zero : (0 : Double) ≤ 0 := by decide

theorem lastWord_nonneg (u : Utterance) : 0 ≤ lastWord u :=
  (foldl_greater_init (fun w : SemanticWord => w.start_time * 1000 + w.duration * 1000)
    u.words 0 Double.zero_le_zero).1

theorem endOfTimeline_nonneg (props : Props) : 0 ≤ (Main.constructor props).endOfTimeline :=
  (foldl_greater_init lastWord props.utterances 0 Double.zero_le_zero).1

/-- Claim C2: for a transcript with at least one word, all of whose words have a
non-negative `start_time` and `duration`, the `endOfTimeline` of the constructor is the
maximum of `start_time*1000 + duration*1000` over all words of all utterances: it
equals the end time of some word (each is `<=` the other, the `==` of JavaScript), and
no word of any utterance ends later. -/
theorem endOfTimeline_isGreatest (props : Props)
    (hne : ∃ u ∈ props.utterances, ∃ w, w ∈ u.words)
    (hpos : ∀ u ∈ props.utterances, ∀ w ∈ u.words, 0 ≤ w.start_time ∧ 0 ≤ w.duration) :
    (∃ u ∈ props.utterances, ∃ w ∈ u.words,
        (Main.constructor props).endOfTimeline ≤ w.start_time * 1000 + w.duration * 1000 ∧
          w.start_time * 1000 + w.duration * 1000 ≤ (Main.constructor props).endOfTimeline) ∧
      (∀ u ∈ props.utterances, ∀ w ∈ u.words,
        w.start_time * 1000 + w.duration * 1000 ≤ (Main.constructor props).endOfTimeline) := by
  -- every end time is a non-negative number
  have hzero : ∀ u ∈ props.utterances, ∀ w ∈ u.words,
      0 ≤ w.start_time * 1000 + w.duration * 1000 := fun u hu w hw =>
    Double.zero_le_add (Double.zero_le_mul_thousand (hpos u hu w hw).1)
      (Double.zero_le_mul_thousand (hpos u hu w hw).2)
  -- the inner reduce
  have hinner : ∀ u ∈ props.utterances, ∀ w ∈ u.words,
      w.start_time * 1000 + w.duration * 1000 ≤ lastWord u := fun u hu =>
    foldl_greater_bound (fun w : SemanticWord => w.start_time * 1000 + w.duration * 1000)
      u.words (fun w hw => (Double.le_self_of_le (hzero u hu w hw)).2) 0 Double.zero_le_zero
  have hinner_att : ∀ u : Utterance, lastWord u = 0 ∨
      ∃ w ∈ u.words, lastWord u = w.start_time * 1000 + w.duration * 1000 := fun u =>
    (foldl_greater_init (fun w : SemanticWord => w.start_time * 1000 + w.duration * 1000)
      u.words 0 Double.zero_le_zero).2
  -- the outer reduce
  have houter : ∀ u ∈ props.utterances, lastWord u ≤ (Main.constructor props).endOfTimeline :=
    foldl_greater_bound lastWord props.utterances
      (fun u _ => (Double.le_self_of_le (lastWord_nonneg u)).2) 0 Double.zero_le_zero
  have houter_att : (Main.constructor props).endOfTimeline = 0 ∨
      ∃ u ∈ props.utterances, (Main.constructor props).endOfTimeline = lastWord u :=
    (foldl_greater_init lastWord props.utterances 0 Double.zero_le_zero).2
  have hend : ∀ u ∈ props.utterances, ∀ w ∈ u.words,
      w.start_time * 1000 + w.duration * 1000 ≤ (Main.constructor props).endOfTimeline :=
    fun u hu w hw => Double.le_trans (hinner u hu w hw) (houter u hu)
  refine ⟨?_, hend⟩
  -- when the result is the start value `0`, any word ends at `0` too
  have hzcase : (Main.constructor props).endOfTimeline = 0 →
      ∃ u ∈ props.utterances, ∃ w ∈ u.words,
        (Main.constructor props).endOfTimeline ≤ w.start_time * 1000 + w.duration * 1000 ∧
          w.start_time * 1000 + w.duration * 1000
            ≤ (Main.constructor props).endOfTimeline := by
    intro h0
    obtain ⟨u, hu, w, hw⟩ := hne
    refine ⟨u, hu, w, hw, ?_, hend u hu w hw⟩
    rw [h0]
    exact hzero u hu w hw
  rcases houter_att with h0 | ⟨u, hu, hu'⟩
  · exact hzcase h0
  · rcases hinner_att u with hl0 | ⟨w, hw, hw'⟩
    · exact hzcase (hu'.trans hl0)
    · refine ⟨u, hu, w, hw, ?_, hend u hu w hw⟩
      rw [hu', hw']
      exact (Double.le_self_of_le (hzero u hu w hw)).2

/-- Claim C2 on `sampleProps`: `endOfTimeline` is not below any end time, it is the end
time of a word, and it is `3000`, the end of a word that is not the last of its
utterance. -/
theorem endOfTimeline_isGreatest_witness :
    ((∃ u ∈ sampleProps.utterances, ∃ w ∈ u.words,
          (Main.constructor sampleProps).endOfTimeline
              ≤ w.start_time * 1000 + w.duration * 1000 ∧
            w.start_time * 1000 + w.duration * 1000
              ≤ (Main.constructor sampleProps).endOfTimeline) ∧
        (∀ u ∈ sampleProps.utterances, ∀ w ∈ u.words,
          w.start_time * 1000 + w.duration * 1000
            ≤ (Main.constructor sampleProps).endOfTimeline)) ∧
      (Main.constructor sampleProps).endOfTimeline = 3000 :=
  ⟨endOfTimeline_isGreatest sampleProps
      ⟨_, List.mem_cons_self _ _, _, List.mem_cons_self _ _⟩
      (by
        intro u hu w hw
        simp only [sampleProps, List.mem_cons, List.mem_singleton, List.not_mem_nil,
          or_false] at hu
        rcases hu with rfl | rfl
        · simp only [List.mem_cons, List.mem_singleton, List.not_mem_nil, or_false] at hw
          rcases hw with rfl | rfl | rfl <;> decide
        · simp only [List.mem_cons, List.mem_singleton, List.not_mem_nil, or_false] at hw
          subst hw
          decide),
    by decide⟩

/-! ## The handlers, field by field -/

theorem stopTicking_fields (m : Main) :
    (stopTicking m).timeline = m.timeline ∧ (stopTicking m).inProgress = m.inProgress ∧
      (stopTicking m).endOfTimeline = m.endOfTimeline ∧
      (stopTicking m).ticking = m.ticking ∧ (stopTicking m).nextHandle = m.nextHandle ∧
      (stopTicking m).intervals = m.intervals.filter (fun x => decide (m.ticking ≠ some x)) := by
  unfold stopTicking
  cases h : m.ticking with
  | none => simp [h]
  | some t =>
    refine ⟨rfl, rfl, rfl, rfl, rfl, ?_⟩
    simp only [ne_eq, Option.some.injEq]
    apply List.filter_congr
    intro x _
    by_cases hx : x = t
    · simp [hx]
    · have : ¬ t = x := fun e => hx e.symm
      simp [hx, this]

theorem pauseTimeline_fields (m : Main) :
    (pauseTimeline m).timeline = m.timeline ∧ (pauseTimeline m).inProgress = false ∧
      (pauseTimeline m).endOfTimeline = m.endOfTimeline ∧
      (pauseTimeline m).ticking = m.ticking ∧ (pauseTimeline m).nextHandle = m.nextHandle ∧
      (pauseTimeline m).intervals = m.intervals.filter (fun x => decide (m.ticking ≠ some x)) := by
  obtain ⟨h1, h2, h3, h4, h5, h6⟩ := stopTicking_fields { m with inProgress := false }
  exact ⟨h1, h2, h3, h4, h5, h6⟩

theorem restartTimeline_fields (m : Main) :
    (restartTimeline m).timeline = 0 ∧ (restartTimeline m).inProgress = false ∧
      (restartTimeline m).endOfTimeline = m.endOfTimeline ∧
      (restartTimeline m).ticking = m.ticking ∧ (restartTimeline m).nextHandle = m.nextHandle ∧
      (restartTimeline m).intervals
        = m.intervals.filter (fun x => decide (m.ticking ≠ some x)) := by
  obtain ⟨h1, h2, h3, h4, h5, h6⟩ := pauseTimeline_fields { m with timeline := 0 }
  exact ⟨h1, h2, h3, h4, h5, h6⟩

theorem startTimeline_fields (m : Main) :
    (startTimeline m).timeline = m.timeline ∧ (startTimeline m).inProgress = true ∧
      (startTimeline m).endOfTimeline = m.endOfTimeline ∧
      (startTimeline m).ticking = some m.nextHandle ∧
      (startTimeline m).nextHandle = m.nextHandle + 1 ∧
      (startTimeline m).intervals = m.intervals ++ [m.nextHandle] :=
  ⟨rfl, rfl, rfl, rfl, rfl, rfl⟩

/-- One tick that stays below the end: only the timeline moves. -/
theorem progressTimeline_of_not_ge (TF : Double) (m : Main)
    (h : ¬ m.timeline + TF ≥ m.endOfTimeline) :
    progressTimeline TF m = { m with timeline := m.timeline + TF } := by
  unfold progressTimeline
  simp only [if_neg h]

/-- One tick that reaches the end: the tick ends in `restartTimeline`. -/
theorem progressTimeline_of_ge (TF : Double) (m : Main)
    (h : m.timeline + TF ≥ m.endOfTimeline) :
    progressTimeline TF m = restartTimeline { m with timeline := m.timeline + TF } := by
  unfold progressTimeline
  simp only [if_pos h]

theorem progressTimeline_fields (TF : Double) (m : Main) :
    (progressTimeline TF m).endOfTimeline = m.endOfTimeline ∧
      (progressTimeline TF m).ticking = m.ticking ∧
      (progressTimeline TF m).nextHandle = m.nextHandle ∧
      ((progressTimeline TF m).timeline = m.timeline + TF ∧
          ¬ m.timeline + TF ≥ m.endOfTimeline ∧
          (progressTimeline TF m).inProgress = m.inProgress ∧
          (progressTimeline TF m).intervals = m.intervals ∨
        (progressTimeline TF m).timeline = 0 ∧
          m.timeline + TF ≥ m.endOfTimeline ∧
          (progressTimeline TF m).inProgress = false ∧
          (progressTimeline TF m).intervals
            = m.intervals.filter (fun x => decide (m.ticking ≠ some x))) := by
  by_cases h : m.timeline + TF ≥ m.endOfTimeline
  · rw [progressTimeline_of_ge TF m h]
    obtain ⟨h1, h2, h3, h4, h5, h6⟩ := restartTimeline_fields { m with timeline := m.timeline + TF }
    exact ⟨h3, h4, h5, Or.inr ⟨h1, h, h2, h6⟩⟩
  · rw [progressTimeline_of_not_ge TF m h]
    exact ⟨rfl, rfl, rfl, Or.inl ⟨rfl, h, rfl, rfl⟩⟩

/-- A property kept by every step holds after every sequence of steps. -/
theorem run_preserves (TF : Double) (P : Main → Prop)
    (hstep : ∀ (a : Action) (m : Main), P m → P (step TF a m)) :
    ∀ (acts : List Action) (m : Main), P m → P (run TF acts m) := by
  intro acts
  induction acts with
  | nil => intro m h; exact h
  | cons a rest ih => intro m h; exact ih (step TF a m) (hstep a m h)

/-! ## Invariants of the transition system -/

/-- No step reassigns `endOfTimeline`. -/
theorem run_endOfTimeline (TF : Double) (acts : List Action) (m : Main) :
    (run TF acts m).endOfTimeline = m.endOfTimeline := by
  refine run_preserves TF (fun s => s.endOfTimeline = m.endOfTimeline) ?_ acts m rfl
  intro a s hs
  cases a
  · exact hs
  · exact (pauseTimeline_fields s).2.2.1.trans hs
  · exact (restartTimeline_fields s).2.2.1.trans hs
  · exact (progressTimeline_fields TF s).1.trans hs

theorem step_timeline_bounds (TF : Double) (hTF : 0 ≤ TF) (a : Action) (m : Main)
    (h : 0 ≤ m.endOfTimeline ∧ 0 ≤ m.timeline ∧ m.timeline ≤ m.endOfTimeline) :
    0 ≤ (step TF a m).endOfTimeline ∧ 0 ≤ (step TF a m).timeline ∧
      (step TF a m).timeline ≤ (step TF a m).endOfTimeline := by
  obtain ⟨he, h0, h1⟩ := h
  cases a
  · exact ⟨he, h0, h1⟩
  · obtain ⟨e1, -, e3, -⟩ := pauseTimeline_fields m
    simp only [step, e1, e3]
    exact ⟨he, h0, h1⟩
  · obtain ⟨e1, -, e3, -⟩ := restartTimeline_fields m
    simp only [step, e1, e3]
    exact ⟨he, Double.zero_le_zero, he⟩
  · obtain ⟨e3, -, -, hcase⟩ := progressTimeline_fields TF m
    simp only [step, e3]
    have hsum : 0 ≤ m.timeline + TF := Double.zero_le_add h0 hTF
    rcases hcase with ⟨e1, hlt, -⟩ | ⟨e1, -, -⟩
    · rw [e1]
      refine ⟨he, hsum, ?_⟩
      -- two numbers are comparable
      by_contra hle
      have hnlt : ¬ m.timeline + TF < m.endOfTimeline := fun hl => hle (Double.le_of_lt hl)
      exact hlt (Double.le_of_not_lt (Double.le_self_of_le hsum).2
        (Double.le_self_of_le he).2 hnlt)
    · rw [e1]
      exact ⟨he, Double.zero_le_zero, he⟩

/-- While the player is not in progress, the handle in `this.ticking` names no live
interval. -/
theorem step_ticking_dead (TF : Double) (a : Action) (m : Main)
    (h : m.inProgress = false → ∀ t, m.ticking = some t → t ∉ m.intervals) :
    (step TF a m).inProgress = false →
      ∀ t, (step TF a m).ticking = some t → t ∉ (step TF a m).intervals := by
  have hfilter : ∀ t, m.ticking = some t →
      t ∉ m.intervals.filter (fun x => decide (m.ticking ≠ some x)) := by
    intro t ht hmem
    have := (List.mem_filter.mp hmem).2
    simp [ht] at this
  cases a
  · intro hp
    simp [step, (startTimeline_fields m).2.1] at hp
  · obtain ⟨-, -, -, e4, -, e6⟩ := pauseTimeline_fields m
    intro _ t ht
    simp only [step, e4, e6] at ht ⊢
    exact hfilter t ht
  · obtain ⟨-, -, -, e4, -, e6⟩ := restartTimeline_fields m
    intro _ t ht
    simp only [step, e4, e6] at ht ⊢
    exact hfilter t ht
  · obtain ⟨-, e4, -, hcase⟩ := progressTimeline_fields TF m
    intro hp t ht
    simp only [step, e4] at hp ht ⊢
    rcases hcase with ⟨-, -, e2, e6⟩ | ⟨-, -, -, e6⟩
    · rw [e6]
      exact h (e2 ▸ hp) t ht
    · rw [e6]
      exact hfilter t ht

/-- Every live interval carries a handle that `window` has already handed out. -/
theorem step_handles_fresh (TF : Double) (a : Action) (m : Main)
    (h : ∀ t ∈ m.intervals, t < m.nextHandle) :
    ∀ t ∈ (step TF a m).intervals, t < (step TF a m).nextHandle := by
  have hfilter : ∀ t ∈ m.intervals.filter (fun x => decide (m.ticking ≠ some x)),
      t < m.nextHandle := fun t ht => h t (List.mem_filter.mp ht).1
  cases a
  · intro t ht
    simp only [step, (startTimeline_fields m).2.2.2.2.1, (startTimeline_fields m).2.2.2.2.2,
      List.mem_append, List.mem_singleton] at ht ⊢
    rcases ht with ht | rfl
    · exact Nat.lt_succ_of_lt (h t ht)
    · exact Nat.lt_succ_self _
  · obtain ⟨-, -, -, -, e5, e6⟩ := pauseTimeline_fields m
    simp only [step, e5, e6]
    exact hfilter
  · obtain ⟨-, -, -, -, e5, e6⟩ := restartTimeline_fields m
    simp only [step, e5, e6]
    exact hfilter
  · obtain ⟨-, -, e5, hcase⟩ := progressTimeline_fields TF m
    simp only [step, e5]
    rcases hcase with ⟨-, -, -, e6⟩ | ⟨-, -, -, e6⟩
    · rw [e6]
      exact h
    · rw [e6]
      exact hfilter

theorem OneTimer.filter_nil {m : Main} (h : OneTimer m) :
    m.intervals.filter (fun x => decide (m.ticking ≠ some x)) = [] := by
  obtain ⟨hf, ht, -⟩ := h
  cases hp : m.inProgress with
  | false => rw [hf hp]; rfl
  | true =>
    obtain ⟨t, -, h1, h2⟩ := ht hp
    simp [h1, h2]

theorem OneTimer.constructor (props : Props) : OneTimer (Main.constructor props) :=
  ⟨fun _ => rfl, fun h => by simp [Main.constructor] at h, by simp [Main.constructor]⟩

theorem OneTimer.step (TF : Double) (a : Action) (m : Main) (h : OneTimer m)
    (hgate : a ≠ Action.start ∨ m.inProgress = false) : OneTimer (step TF a m) := by
  have hnil := h.filter_nil
  obtain ⟨hf, ht, hn⟩ := h
  cases a
  · have hp : m.inProgress = false := by
      rcases hgate with hg | hg
      · exact absurd rfl hg
      · exact hg
    refine ⟨?_, ?_, ?_⟩
    · intro hfalse
      simp [FollowAlong.step, (startTimeline_fields m).2.1] at hfalse
    · intro _
      refine ⟨m.nextHandle, hn, rfl, ?_⟩
      simp only [FollowAlong.step, (startTimeline_fields m).2.2.2.2.2, hf hp, List.nil_append]
    · exact Nat.succ_ne_zero _
  · obtain ⟨-, e2, -, -, e5, e6⟩ := pauseTimeline_fields m
    refine ⟨fun _ => e6.trans hnil, ?_, e5 ▸ hn⟩
    intro htrue
    simp [FollowAlong.step, e2] at htrue
  · obtain ⟨-, e2, -, -, e5, e6⟩ := restartTimeline_fields m
    refine ⟨fun _ => e6.trans hnil, ?_, e5 ▸ hn⟩
    intro htrue
    simp [FollowAlong.step, e2] at htrue
  · obtain ⟨-, e4, e5, hcase⟩ := progressTimeline_fields TF m
    rcases hcase with ⟨-, -, e2, e6⟩ | ⟨-, -, e2, e6⟩
    · refine ⟨?_, ?_, e5 ▸ hn⟩
      · intro hp
        simp only [FollowAlong.step, e2, e6] at hp ⊢
        exact hf hp
      · intro hp
        simp only [FollowAlong.step, e2, e6, e4] at hp ⊢
        exact ht hp
    · refine ⟨fun _ => e6.trans hnil, ?_, e5 ▸ hn⟩
      intro htrue
      simp [FollowAlong.step, e2] at htrue

theorem OneTimer.run (TF : Double) (acts : List Action) :
    ∀ m : Main, OneTimer m → startGated TF acts m = true → OneTimer (run TF acts m) := by
  induction acts with
  | nil => intro m h _; exact h
  | cons a rest ih =>
    intro m h hg
    simp only [startGated, Bool.and_eq_true, Bool.or_eq_true, decide_eq_true_eq,
      Bool.not_eq_true'] at hg
    exact ih (FollowAlong.step TF a m) (OneTimer.step TF a m h hg.1) hg.2

theorem OneTimer.unmount_nil {m : Main} (h : OneTimer m) :
    (componentWillUnmount m).intervals = [] := by
  obtain ⟨hf, ht, -⟩ := h
  unfold componentWillUnmount
  cases hp : m.inProgress with
  | false =>
    cases hk : m.ticking with
    | none => simpa using hf hp
    | some t =>
      by_cases h0 : t = 0
      · simpa [h0] using hf hp
      · simp [h0, hf hp]
  | true =>
    obtain ⟨t, h0, h1, h2⟩ := ht hp
    simp [h1, h0, h2]

/-! ## The timeline stays within its bounds -/

/-- Claim C3: with a non-negative `TICKING_FREQUENCY`, every state reached from the
initial state (`timeline = 0`, `inProgress = false`) by any sequence of
`startTimeline`, `pauseTimeline`, `restartTimeline` and tick steps satisfies
`0 <= timeline <= endOfTimeline`, where `endOfTimeline` is still the value the
constructor computed. -/
theorem timeline_within_bounds (TF : Double) (hTF : 0 ≤ TF) (props : Props)
    (acts : List Action) :
    (Main.constructor props).timeline = 0 ∧ (Main.constructor props).inProgress = false ∧
      0 ≤ (run TF acts (Main.constructor props)).timeline ∧
      (run TF acts (Main.constructor props)).timeline
        ≤ (run TF acts (Main.constructor props)).endOfTimeline ∧
      (run TF acts (Main.constructor props)).endOfTimeline
        = (Main.constructor props).endOfTimeline := by
  have h := run_preserves TF
    (fun m => 0 ≤ m.endOfTimeline ∧ 0 ≤ m.timeline ∧ m.timeline ≤ m.endOfTimeline)
    (step_timeline_bounds TF hTF) acts (Main.constructor props)
    ⟨endOfTimeline_nonneg props, Double.zero_le_zero, endOfTimeline_nonneg props⟩
  exact ⟨rfl, rfl, h.2.1, h.2.2, run_endOfTimeline TF acts (Main.constructor props)⟩

/-- Claim C3 on the one-word transcript, ticking every `1000` ms: start, two ticks,
pause, start, two more ticks. -/
theorem timeline_within_bounds_witness :
    (0 : Double) ≤ 1000 ∧
      0 ≤ (run 1000 [.start, .tick, .tick, .pause, .start, .tick, .tick]
            (Main.constructor oneWordProps)).timeline ∧
      (run 1000 [.start, .tick, .tick, .pause, .start, .tick, .tick]
            (Main.constructor oneWordProps)).timeline
        ≤ (run 1000 [.start, .tick, .tick, .pause, .start, .tick, .tick]
            (Main.constructor oneWordProps)).endOfTimeline :=
  ⟨by decide,
    (timeline_within_bounds 1000 (by decide) oneWordProps
      [.start, .tick, .tick, .pause, .start, .tick, .tick]).2.2.1,
    (timeline_within_bounds 1000 (by decide) oneWordProps
      [.start, .tick, .tick, .pause, .start, .tick, .tick]).2.2.2.1⟩

/-! ## `pauseTimeline` -/

/-- Claim C8: in every state reached by any sequence of steps in which the player is
not in progress, `pauseTimeline` changes nothing (timeline, `inProgress`, the live
intervals and every other field stay as they are); in a state that is in progress
with timeline `t` it yields `inProgress = false` and leaves the timeline at `t`. -/
theorem pauseTimeline_noop_or_pauses (TF : Double) (props : Props) (acts : List Action) :
    ((run TF acts (Main.constructor props)).inProgress = false →
        pauseTimeline (run TF acts (Main.constructor props))
          = run TF acts (Main.constructor props)) ∧
      ((run TF acts (Main.constructor props)).inProgress = true →
        (pauseTimeline (run TF acts (Main.constructor props))).inProgress = false ∧
          (pauseTimeline (run TF acts (Main.constructor props))).timeline
            = (run TF acts (Main.constructor props)).timeline) := by
  have hdead := run_preserves TF
    (fun m => m.inProgress = false → ∀ t, m.ticking = some t → t ∉ m.intervals)
    (step_ticking_dead TF) acts (Main.constructor props)
    (fun _ t ht => by simp [Main.constructor] at ht)
  generalize run TF acts (Main.constructor props) = m at hdead
  constructor
  · intro hp
    have hfilter : m.intervals.filter (fun x => decide (m.ticking ≠ some x)) = m.intervals := by
      apply List.filter_eq_self.mpr
      intro x hx
      simp only [ne_eq, decide_eq_true_eq]
      intro hk
      exact hdead hp x hk hx
    obtain ⟨e1, e2, e3, e4, e5, e6⟩ := pauseTimeline_fields m
    rw [hfilter] at e6
    have e0 : (pauseTimeline m).props = m.props := by
      obtain ⟨⟩ := m
      simp only [pauseTimeline, stopTicking]
      split <;> rfl
    have e7 : (pauseTimeline m).speakersById = m.speakersById := by
      obtain ⟨⟩ := m
      simp only [pauseTimeline, stopTicking]
      split <;> rfl
    rw [← hp] at e2
    generalize pauseTimeline m = m' at *
    obtain ⟨⟩ := m
    obtain ⟨⟩ := m'
    simp only at e0 e1 e2 e3 e4 e5 e6 e7
    simp only [Main.mk.injEq]
    exact ⟨e0, e1, e2, e7, e3, e4, e6, e5⟩
  · intro _
    exact ⟨(pauseTimeline_fields m).2.1, (pauseTimeline_fields m).1⟩

/-- Claim C8 on the one-word transcript: pausing twice is pausing once, and pausing a
running player keeps its timeline. -/
theorem pauseTimeline_noop_or_pauses_witness :
    pauseTimeline (run 1000 [.start, .tick, .pause] (Main.constructor oneWordProps))
        = run 1000 [.start, .tick, .pause] (Main.constructor oneWordProps) ∧
      (pauseTimeline (run 1000 [.start, .tick] (Main.constructor oneWordProps))).timeline
        = (run 1000 [.start, .tick] (Main.constructor oneWordProps)).timeline :=
  ⟨(pauseTimeline_noop_or_pauses 1000 oneWordProps [.start, .tick, .pause]).1
      (by decide),
    ((pauseTimeline_noop_or_pauses 1000 oneWordProps [.start, .tick]).2
      (by decide)).2⟩

/-! ## Live intervals -/

/-- Claim C6, as the code has it: from every state reached by a sequence of steps in
which `startTimeline` is only taken while `inProgress` is `false` (the Start button is
disabled otherwise), no interval is live after `pauseTimeline`, after
`restartTimeline` and after `componentWillUnmount`; and whenever such a state has
`inProgress = false`, no interval is live in it. -/
theorem no_live_interval_when_start_gated (TF : Double) (props : Props) (acts : List Action)
    (hg : startGated TF acts (Main.constructor props) = true) :
    (pauseTimeline (run TF acts (Main.constructor props))).intervals = [] ∧
      (restartTimeline (run TF acts (Main.constructor props))).intervals = [] ∧
      (componentWillUnmount (run TF acts (Main.constructor props))).intervals = [] ∧
      ((run TF acts (Main.constructor props)).inProgress = false →
        (run TF acts (Main.constructor props)).intervals = []) := by
  have h := OneTimer.run TF acts (Main.constructor props) (OneTimer.constructor props) hg
  exact ⟨(pauseTimeline_fields _).2.2.2.2.2.trans h.filter_nil,
    (restartTimeline_fields _).2.2.2.2.2.trans h.filter_nil, h.unmount_nil, h.1⟩

/-- Claim C6 on start, then pause, then restart: no interval is left live. -/
theorem no_live_interval_when_start_gated_witness :
    startGated 1000 [.start, .pause, .restart] (Main.constructor oneWordProps) = true ∧
      (run 1000 [.start, .pause, .restart] (Main.constructor oneWordProps)).inProgress
        = false ∧
      (run 1000 [.start, .pause, .restart] (Main.constructor oneWordProps)).intervals = [] :=
  ⟨by decide, by decide,
    (no_live_interval_when_start_gated 1000 oneWordProps [.start, .pause, .restart]
      (by decide)).2.2.2 (by decide)⟩

/-- The claim C6 fails without the gate: after start, start, pause on the one-word
transcript the player is not in progress, yet the interval of the first start is
still live, and its next firing moves the timeline from `0` to `1000`. The same
interval survives `restartTimeline` and `componentWillUnmount`. -/
theorem live_interval_after_second_start :
    (run 1000 [.start, .start, .pause] (Main.constructor oneWordProps)).inProgress = false ∧
      (run 1000 [.start, .start, .pause] (Main.constructor oneWordProps)).intervals = [1] ∧
      (run 1000 [.start, .start, .pause] (Main.constructor oneWordProps)).timeline = 0 ∧
      (run 1000 [.start, .start, .pause, .tick] (Main.constructor oneWordProps)).timeline
        = 1000 ∧
      (restartTimeline (run 1000 [.start, .start] (Main.constructor oneWordProps))).intervals
        = [1] ∧
      (componentWillUnmount
          (run 1000 [.start, .start] (Main.constructor oneWordProps))).intervals
        = [1] := by
  exact ⟨by decide, by decide, by decide, by decide, by decide, by decide⟩

/-! ## `startTimeline` on a running player -/

/-- Claim C7, as the code has it: in every state reached by any sequence of steps that
is in progress, `startTimeline` leaves `timeline` and `inProgress` as they are and
registers one more live interval, under a handle that no live interval carries; the
intervals that were live stay live. -/
theorem startTimeline_while_running (TF : Double) (props : Props) (acts : List Action)
    (hrun : (run TF acts (Main.constructor props)).inProgress = true) :
    (startTimeline (run TF acts (Main.constructor props))).timeline
        = (run TF acts (Main.constructor props)).timeline ∧
      (startTimeline (run TF acts (Main.constructor props))).inProgress
        = (run TF acts (Main.constructor props)).inProgress ∧
      (startTimeline (run TF acts (Main.constructor props))).intervals
        = (run TF acts (Main.constructor props)).intervals
            ++ [(run TF acts (Main.constructor props)).nextHandle] ∧
      (run TF acts (Main.constructor props)).nextHandle
        ∉ (run TF acts (Main.constructor props)).intervals := by
  have hfresh := run_preserves TF (fun m => ∀ t ∈ m.intervals, t < m.nextHandle)
    (step_handles_fresh TF) acts (Main.constructor props)
    (fun t ht => by simp [Main.constructor] at ht)
  exact ⟨rfl, hrun.symm ▸ rfl, rfl, fun hmem => lt_irrefl _ (hfresh _ hmem)⟩

/-- Claim C7 on a player that was started once: the second start leaves two live
intervals. -/
theorem startTimeline_while_running_witness :
    (run 1000 [.start] (Main.constructor oneWordProps)).inProgress = true ∧
      (startTimeline (run 1000 [.start] (Main.constructor oneWordProps))).intervals
        = (run 1000 [.start] (Main.constructor oneWordProps)).intervals
            ++ [(run 1000 [.start] (Main.constructor oneWordProps)).nextHandle] :=
  ⟨rfl, (startTimeline_while_running 1000 oneWordProps [.start] rfl).2.2.1⟩

/-- The claim C7 fails: a player that is in progress with the one live interval `1`
has the two live intervals `1` and `2` after another `startTimeline`. -/
theorem startTimeline_not_idempotent :
    (startTimeline (Main.constructor oneWordProps)).inProgress = true ∧
      (startTimeline (Main.constructor oneWordProps)).intervals = [1] ∧
      (startTimeline (startTimeline (Main.constructor oneWordProps))).intervals = [1, 2] ∧
      startTimeline (startTimeline (Main.constructor oneWordProps))
        ≠ startTimeline (Main.constructor oneWordProps) := by
  refine ⟨rfl, rfl, rfl, ?_⟩
  intro h
  have h2 := congrArg Main.intervals h
  exact absurd h2 (by decide)

/-! ## One tick -/

/-- Claim C4, as the code has it: with a non-negative `TICKING_FREQUENCY`, for every
state in progress with timeline `t` reached by any sequence of steps, one tick yields
`timeline = t + TICKING_FREQUENCY` with `inProgress` still `true` when
`t + TICKING_FREQUENCY < endOfTimeline`, and otherwise ends in restart with
`timeline = 0` and `inProgress = false`; so after a tick the timeline is below
`endOfTimeline` whenever `endOfTimeline` is positive. -/
theorem progressTimeline_spec (TF : Double) (hTF : 0 ≤ TF) (props : Props)
    (acts : List Action) (hrun : (run TF acts (Main.constructor props)).inProgress = true) :
    ((run TF acts (Main.constructor props)).timeline + TF
          < (run TF acts (Main.constructor props)).endOfTimeline →
        (progressTimeline TF (run TF acts (Main.constructor props))).timeline
            = (run TF acts (Main.constructor props)).timeline + TF ∧
          (progressTimeline TF (run TF acts (Main.constructor props))).inProgress = true) ∧
      (¬ (run TF acts (Main.constructor props)).timeline + TF
            < (run TF acts (Main.constructor props)).endOfTimeline →
        (progressTimeline TF (run TF acts (Main.constructor props))).timeline = 0 ∧
          (progressTimeline TF (run TF acts (Main.constructor props))).inProgress = false) ∧
      (0 < (run TF acts (Main.constructor props)).endOfTimeline →
        (progressTimeline TF (run TF acts (Main.constructor props))).timeline
          < (progressTimeline TF (run TF acts (Main.constructor props))).endOfTimeline) := by
  have hinv := run_preserves TF
    (fun m => 0 ≤ m.endOfTimeline ∧ 0 ≤ m.timeline ∧ m.timeline ≤ m.endOfTimeline)
    (step_timeline_bounds TF hTF) acts (Main.constructor props)
    ⟨endOfTimeline_nonneg props, Double.zero_le_zero, endOfTimeline_nonneg props⟩
  generalize run TF acts (Main.constructor props) = m at hrun hinv
  obtain ⟨he, h0, -⟩ := hinv
  -- the new timeline and the end are numbers
  have hsum : m.timeline + TF ≤ m.timeline + TF :=
    (Double.le_self_of_le (Double.zero_le_add h0 hTF)).2
  have hend : m.endOfTimeline ≤ m.endOfTimeline := (Double.le_self_of_le he).2
  obtain ⟨e3, -, -, hcase⟩ := progressTimeline_fields TF m
  refine ⟨?_, ?_, ?_⟩
  · intro hlt
    rcases hcase with ⟨e1, -, e2, -⟩ | ⟨-, hge, -⟩
    · exact ⟨e1, e2.trans hrun⟩
    · exact absurd hge (Double.not_le_of_lt hlt)
  · intro hnlt
    rcases hcase with ⟨-, hnge, -⟩ | ⟨e1, -, e2, -⟩
    · exact absurd (Double.le_of_not_lt hsum hend hnlt) hnge
    · exact ⟨e1, e2⟩
  · intro hpos
    rw [e3]
    rcases hcase with ⟨e1, hnge, -⟩ | ⟨e1, -, -⟩
    · rw [e1]
      by_contra hnlt
      exact hnge (Double.le_of_not_lt hsum hend hnlt)
    · rw [e1]
      exact hpos

/-- Claim C4 on the one-word transcript, which ends at `3000` ms, ticking every
`1000` ms: the first tick of the started player gives `1000`, which is below the end,
the second `2000`, and the third, which would give `3000`, leaves the player stopped
at `0`. -/
theorem progressTimeline_spec_witness :
    (0 : Double) ≤ 1000 ∧
      (run 1000 [.start] (Main.constructor oneWordProps)).inProgress = true ∧
      (progressTimeline 1000 (run 1000 [.start] (Main.constructor oneWordProps))).timeline
        = (run 1000 [.start] (Main.constructor oneWordProps)).timeline + 1000 ∧
      (progressTimeline 1000 (run 1000 [.start] (Main.constructor oneWordProps))).timeline
        < (progressTimeline 1000
            (run 1000 [.start] (Main.constructor oneWordProps))).endOfTimeline ∧
      (ticks 1000 1 (startTimeline (Main.constructor oneWordProps))).timeline = 1000 ∧
      (ticks 1000 2 (startTimeline (Main.constructor oneWordProps))).timeline = 2000 ∧
      (ticks 1000 3 (startTimeline (Main.constructor oneWordProps))).timeline = 0 ∧
      (ticks 1000 3 (startTimeline (Main.constructor oneWordProps))).inProgress = false :=
  ⟨by decide, by decide,
    ((progressTimeline_spec 1000 (by decide) oneWordProps [.start] (by decide)).1
      (by decide)).1,
    (progressTimeline_spec 1000 (by decide) oneWordProps [.start] (by decide)).2.2
      (by decide),
    by decide, by decide, by decide, by decide⟩

/-- The claim C4 fails in its last clause on an empty transcript: the default props
give `endOfTimeline = 0`, and a tick of the started player ends in restart with
`timeline = 0`, a value that is not below `endOfTimeline`. -/
theorem tick_rests_at_zero_endOfTimeline :
    (startTimeline (Main.constructor {})).inProgress = true ∧
      (Main.constructor {}).endOfTimeline = 0 ∧
      (progressTimeline 10 (startTimeline (Main.constructor {}))).timeline = 0 ∧
      (progressTimeline 10 (startTimeline (Main.constructor {}))).timeline
        ≥ (progressTimeline 10 (startTimeline (Main.constructor {}))).endOfTimeline :=
  ⟨by decide, by decide, by decide, by decide⟩

/-! ## `keyify` -/

theorem Heap.own_append {ν : Type} (heap more : Heap ν) (item : ℕ) (h : item < heap.length) :
    Heap.own (heap ++ more) item = Heap.own heap item := by
  unfold Heap.own
  rw [List.getElem?_append_left h]

/-- What the `map` of `keyify` does to the heap: it appends one cell per element and
touches nothing else. -/
theorem keyifyItems_spec {ν : Type} (uuid : ℕ → ν) (items : List ℕ) :
    ∀ (heap : Heap ν) (calls : ℕ),
      ∃ added : List (Cell ν),
        (keyifyItems uuid items heap calls).2.1 = heap ++ added ∧
        added.length = items.length ∧
        (keyifyItems uuid items heap calls).1.length = items.length ∧
        (keyifyItems uuid items heap calls).2.2 = calls + items.length ∧
        (∀ i < items.length,
          (keyifyItems uuid items heap calls).1[i]? = some (heap.length + i)) ∧
        (∀ (i item : ℕ), items[i]? = some item → item < heap.length →
          added[i]? = some (Cell.object
            (Obj.spreadWith (Heap.own heap item) "__key" (uuid (calls + i))))) := by
  induction items with
  | nil =>
    intro heap calls
    exact ⟨[], by simp [keyifyItems], rfl, rfl, rfl, by simp, by simp⟩
  | cons item rest ih =>
    intro heap calls
    obtain ⟨added, h1, h2, h3, h4, h5, h6⟩ :=
      ih (heap ++ [Cell.object (Obj.spreadWith (Heap.own heap item) "__key" (uuid calls))])
        (calls + 1)
    refine ⟨Cell.object (Obj.spreadWith (Heap.own heap item) "__key" (uuid calls)) :: added,
      ?_, ?_, ?_, ?_, ?_, ?_⟩
    · simp only [keyifyItems, h1, List.append_assoc, List.singleton_append]
    · simp [h2]
    · simp only [keyifyItems, List.length_cons, h3]
    · simp only [keyifyItems, h4, List.length_cons]
      omega
    · intro i hi
      cases i with
      | zero => simp [keyifyItems]
      | succ i =>
        have hi' : i < rest.length := by simpa using hi
        simp only [keyifyItems, List.getElem?_cons_succ, h5 i hi', List.length_append,
          List.length_singleton, Option.some.injEq]
        omega
    · intro i r hr hlt
      cases i with
      | zero =>
        simp only [List.getElem?_cons_zero, Option.some.injEq] at hr
        subst hr
        simp
      | succ i =>
        simp only [List.getElem?_cons_succ] at hr ⊢
        have hlt' : r < (heap ++ [Cell.object
            (Obj.spreadWith (Heap.own heap item) "__key" (uuid calls))]).length := by
          simp only [List.length_append, List.length_singleton]
          omega
        rw [h6 i r hr hlt', Heap.own_append _ _ _ hlt]
        congr 4
        omega

theorem sampleUuid_injective : Function.Injective sampleUuid := by
  intro a b h
  have h2 := congrArg (fun s : String => s.data.length) h
  simpa [sampleUuid] using h2

/-- Claim C9: for an input array of records, `keyify` returns a new array of the same
length, whose `i`-th element is a new object with every field of the `i`-th input
record other than `__key` at the same value, plus a `__key` field holding the
identifier generated for it; every cell that was on the heap before the call, the
input array and its records among them, is the same after the call; and when the
generator never returns the same value twice, the `__key` values of the result are
pairwise distinct. -/
theorem keyify_spec {ν : Type} (uuid : ℕ → ν) (heap : Heap ν) (calls array : ℕ)
    (items : List ℕ) (harr : heap[array]? = some (Cell.array items))
    (hrec : ∀ item ∈ items, ∃ own, heap[item]? = some (Cell.object own)) :
    ∃ (out : ℕ) (heap' : Heap ν) (calls' : ℕ) (keyed : List ℕ),
      keyify uuid heap calls array = some (out, heap', calls') ∧
      (∀ a, a < heap.length → heap'[a]? = heap[a]?) ∧
      heap.length ≤ out ∧ heap'[out]? = some (Cell.array keyed) ∧
      keyed.length = items.length ∧
      (∀ (i item : ℕ) (own : Obj String ν),
        items[i]? = some item → heap[item]? = some (Cell.object own) →
        ∃ (r : ℕ) (own' : Obj String ν),
          keyed[i]? = some r ∧ heap.length ≤ r ∧ heap'[r]? = some (Cell.object own') ∧
          (∀ field : String, field ≠ "__key" → Obj.get own' field = Obj.get own field) ∧
          Obj.get own' "__key" = some (uuid (calls + i))) ∧
      (Function.Injective uuid →
        ∀ (i j ri rj : ℕ), keyed[i]? = some ri → keyed[j]? = some rj → i ≠ j →
          Obj.get (Heap.own heap' ri) "__key" ≠ Obj.get (Heap.own heap' rj) "__key") := by
  obtain ⟨added, h1, h2, h3, h4, h5, h6⟩ := keyifyItems_spec uuid items heap calls
  -- the cell allocated for the `i`-th element
  have hcell : ∀ (i item : ℕ) (own : Obj String ν),
      items[i]? = some item → heap[item]? = some (Cell.object own) →
      (heap ++ added ++ [Cell.array (keyifyItems uuid items heap calls).1])[heap.length + i]?
        = some (Cell.object (Obj.spreadWith own "__key" (uuid (calls + i)))) := by
    intro i item own hi hown
    have hlt : item < heap.length := (List.getElem?_eq_some_iff.mp hown).1
    have hi' : i < added.length := h2 ▸ (List.getElem?_eq_some_iff.mp hi).1
    have hown' : Heap.own heap item = own := by simp [Heap.own, hown]
    rw [List.getElem?_append_left (by simp only [List.length_append]; omega),
      List.getElem?_append_right (Nat.le_add_right _ _), Nat.add_sub_cancel_left,
      h6 i item hi hlt, hown']
  refine ⟨(heap ++ added).length, heap ++ added ++ [Cell.array (keyifyItems uuid items heap calls).1],
    calls + items.length, (keyifyItems uuid items heap calls).1, ?_, ?_, ?_, ?_, h3, ?_, ?_⟩
  · simp only [keyify, harr, h1, h4]
  · intro a ha
    rw [List.append_assoc, List.getElem?_append_left ha]
  · simp only [List.length_append]
    omega
  · rw [List.getElem?_append_right (le_refl _), Nat.sub_self]
    rfl
  · intro i item own hi hown
    refine ⟨heap.length + i, Obj.spreadWith own "__key" (uuid (calls + i)),
      h5 i (List.getElem?_eq_some_iff.mp hi).1, Nat.le_add_right _ _,
      hcell i item own hi hown, ?_, ?_⟩
    · intro field hf
      have hne : ¬ "__key" = field := fun e => hf e.symm
      rw [Obj.get_spreadWith]
      simp [hne]
    · rw [Obj.get_spreadWith]
      simp
  · intro hinj i j ri rj hi hj hij
    have key : ∀ (k rk : ℕ), (keyifyItems uuid items heap calls).1[k]? = some rk →
        Obj.get (Heap.own
            (heap ++ added ++ [Cell.array (keyifyItems uuid items heap calls).1]) rk) "__key"
          = some (uuid (calls + k)) := by
      intro k rk hk
      have hklt : k < items.length := h3 ▸ (List.getElem?_eq_some_iff.mp hk).1
      have hrk : rk = heap.length + k := by
        have := h5 k hklt
        rw [hk] at this
        exact Option.some.inj this
      obtain ⟨own, hown⟩ := hrec items[k] (List.getElem_mem hklt)
      have hcellk := hcell k items[k] own (List.getElem?_eq_getElem hklt) hown
      subst hrk
      simp only [Heap.own, hcellk]
      rw [Obj.get_spreadWith]
      simp
    rw [key i ri hi, key j rj hj]
    intro h
    exact hij (Nat.add_left_cancel (hinj (Option.some.inj h)))

/-- Claim C9 on `sampleHeap`: the array at reference `2` is keyified into a new array
at reference `5`, of two new objects with two different keys, the three cells of the
input staying as they were. -/
theorem keyify_spec_witness :
    keyify sampleUuid sampleHeap 0 2
        = some (5, sampleHeap ++ [Cell.object [("name", "Ann"), ("__key", "")],
            Cell.object [("__key", "u"), ("name", "Bob")], Cell.array [3, 4]], 2) ∧
      ∃ (out : ℕ) (heap' : Heap String) (calls' : ℕ) (keyed : List ℕ),
        keyify sampleUuid sampleHeap 0 2 = some (out, heap', calls') ∧
        (∀ a, a < sampleHeap.length → heap'[a]? = sampleHeap[a]?) ∧
        heap'[out]? = some (Cell.array keyed) ∧ keyed.length = 2 ∧
        (∀ (i j ri rj : ℕ), keyed[i]? = some ri → keyed[j]? = some rj → i ≠ j →
          Obj.get (Heap.own heap' ri) "__key" ≠ Obj.get (Heap.own heap' rj) "__key") := by
  refine ⟨rfl, ?_⟩
  obtain ⟨out, heap', calls', keyed, h1, h2, -, h4, h5, -, h7⟩ :=
    keyify_spec sampleUuid sampleHeap 0 2 [0, 1] rfl
      (by
        intro item hitem
        simp only [List.mem_cons, List.mem_singleton, List.not_mem_nil, or_false] at hitem
        rcases hitem with rfl | rfl
        · exact ⟨_, rfl⟩
        · exact ⟨_, rfl⟩)
  exact ⟨out, heap', calls', keyed, h1, h2, h4, h5, h7 sampleUuid_injective⟩

end FollowAlong
